import Mathlib

/-!
Verification of the social-monitor trend pipeline.

This file gives a shallow embedding of the two source files of the
repository (monitor.py and app.py) and proves properties of the embedded
functions.  Python dictionaries are modelled as association lists whose
keys appear in insertion order, Counter as a first-occurrence-ordered
frequency table, and Counter.most_common as a stable descending sort by
count followed by a take (that is the documented behaviour of
most_common: elements with equal counts are ordered in the order first
encountered).  Floating point division in the spike computation is
modelled exactly over the rationals.  Character classes of the regular
expressions are modelled over their ASCII range, matching the data the
program processes.  Text scanners are written with a fuel argument
initialised to the length of the input; every step of the corresponding
Python loop consumes at least one character, so this fuel always
suffices, and all lemmas below hold for every fuel value.
-/

namespace SocialMonitor

open scoped List

/-- Characters matched by the regex class backslash-w (ASCII range):
letters, digits and underscore. -/
def isWordChar (c : Char) : Bool := c.isAlpha || c.isDigit || c = '_'

/-- Characters matched by the regex class backslash-s (ASCII range). -/
def isSpaceChar (c : Char) : Bool :=
  c = ' ' || c = '\t' || c = '\n' || c = '\r' || c = '\x0b' || c = '\x0c'

/-- Scanner for the hashtag extraction in clean_text (monitor.py line 57):
re.findall of a hash sign followed by one or more word characters.  Returns
the matches in the order found, scanning left to right, each match taking
the maximal run of word characters after the hash sign. -/
def findHashtagsF : Nat → List Char → List String
  | 0, _ => []
  | _ + 1, [] => []
  | fuel + 1, c :: rest =>
    if c = '#' then
      if (rest.takeWhile isWordChar).isEmpty then findHashtagsF fuel rest
      else ('#' :: rest.takeWhile isWordChar).asString ::
        findHashtagsF fuel (rest.dropWhile isWordChar)
    else findHashtagsF fuel rest

/-- Hashtag extraction with the fuel set to the input length. -/
def findHashtags (cs : List Char) : List String := findHashtagsF cs.length cs

/-- Helper for the bracketed-span alternatives of the substitution regex in
clean_text (monitor.py line 60): a non-greedy dot-star up to the closing
character.  The dot does not match a newline, so the search fails if a
newline is reached first.  Returns the remainder after the closer. -/
def findCloser (close : Char) : List Char → Option (List Char)
  | [] => none
  | c :: rest =>
    if c = close then some rest
    else if c = '\n' then none
    else findCloser close rest

/-- One match attempt, at the current position, of the substitution regex
of clean_text (monitor.py line 60): http followed by non-space characters,
or an at sign followed by word characters, or a bracketed span, or a
parenthesized span.  Returns the remainder of the text after the match,
or none if no alternative matches here.  The four alternatives start with
distinct characters, so the alternation order of the Python regex does
not matter. -/
def matchStrip : List Char → Option (List Char)
  | 'h' :: 't' :: 't' :: 'p' :: c :: rest =>
    if isSpaceChar c then none
    else some ((c :: rest).dropWhile fun x => !isSpaceChar x)
  | '@' :: c :: rest =>
    if isWordChar c then some ((c :: rest).dropWhile isWordChar) else none
  | '[' :: rest => findCloser ']' rest
  | '(' :: rest => findCloser ')' rest
  | _ => none

/-- Scanner for re.sub with an empty replacement (monitor.py line 60):
scan left to right; where the pattern matches, drop the match and continue
after it, otherwise keep the character and advance by one. -/
def stripSubF : Nat → List Char → List Char
  | 0, _ => []
  | _ + 1, [] => []
  | fuel + 1, c :: rest =>
    match matchStrip (c :: rest) with
    | some rem => stripSubF fuel rem
    | none => c :: stripSubF fuel rest

/-- The substitution with the fuel set to the input length. -/
def stripSub (cs : List Char) : List Char := stripSubF cs.length cs

/-- Scanner for the word extraction in clean_text (monitor.py line 61):
re.findall of an alphabetic run of length at least three between word
boundaries.  A maximal run of word characters matches exactly when it
consists solely of letters and has length at least three; runs adjacent
to digits or underscores are rejected by the word boundaries. -/
def findWordsF : Nat → List Char → List String
  | 0, _ => []
  | _ + 1, [] => []
  | fuel + 1, c :: rest =>
    if isWordChar c then
      if (c :: rest.takeWhile isWordChar).all Char.isAlpha
          && decide (3 ≤ (c :: rest.takeWhile isWordChar).length) then
        (c :: rest.takeWhile isWordChar).asString ::
          findWordsF fuel (rest.dropWhile isWordChar)
      else findWordsF fuel (rest.dropWhile isWordChar)
    else findWordsF fuel rest

/-- Word extraction with the fuel set to the input length. -/
def findWords (cs : List Char) : List String := findWordsF cs.length cs

/-- The stopword set of clean_text (monitor.py lines 64 to 79), transcribed
literally; the source literal lists the word want twice, which is
irrelevant for membership. -/
def stopwords : List String :=
  ["the", "and", "for", "are", "but", "not", "you", "all",
   "can", "had", "her", "was", "one", "our", "out", "day",
   "get", "has", "him", "his", "how", "its", "may", "new",
   "now", "old", "see", "two", "who", "boy", "did", "this",
   "that", "with", "have", "from", "they", "know", "want",
   "been", "good", "much", "some", "time", "very", "when",
   "come", "here", "just", "like", "long", "make", "many",
   "over", "such", "take", "than", "them", "well", "were",
   "what", "will", "your", "about", "after", "again", "back",
   "could", "first", "found", "great", "group", "hand", "high",
   "keep", "large", "last", "left", "life", "live", "made",
   "might", "move", "must", "name", "need", "never", "next",
   "number", "part", "place", "point", "put", "right", "said",
   "same", "seem", "small", "still", "tell", "think", "turn",
   "use", "want", "way", "where", "which", "work", "world",
   "year", "young", "reddit", "comment", "comments", "post"]

/-- clean_text (monitor.py lines 50 to 83): lowercase the text, extract
hashtags from the lowercased text, strip URLs, mentions and bracketed or
parenthesized spans, extract alphabetic words, drop stopwords and words
shorter than four characters, and return hashtags followed by the
surviving words.  An empty input yields the empty list. -/
def clean_text (text : String) : List String :=
  if text = "" then []
  else
    let t := text.data.map Char.toLower
    findHashtags t ++
      ((findWords (stripSub t)).filter fun w =>
        !(stopwords.contains w) && decide (4 ≤ w.length))

/-- The distinct elements of a list in order of first occurrence: the key
order of a Python dict or Counter built by successive insertion. -/
def keysInOrder {α : Type} [DecidableEq α] : List α → List α
  | [] => []
  | a :: rest => a :: (keysInOrder rest).filter fun b => b != a

/-- collections.Counter as an association list: the distinct elements in
first-occurrence order, each with its number of occurrences. -/
def counter {α : Type} [DecidableEq α] (l : List α) : List (α × Nat) :=
  (keysInOrder l).map fun a => (a, l.count a)

/-- The comparator underlying Counter.most_common: descending count. -/
def countGE (a b : String × Nat) : Prop := b.2 ≤ a.2

instance : DecidableRel countGE := fun a b => inferInstanceAs (Decidable (b.2 ≤ a.2))

instance : IsTotal (String × Nat) countGE := ⟨fun a b => Nat.le_total b.2 a.2⟩

instance : IsTrans (String × Nat) countGE := ⟨fun _ _ _ h1 h2 => Nat.le_trans h2 h1⟩

/-- Counter.most_common n: the n entries of largest count.  Documented as a
stable descending sort by count (elements with equal counts are ordered in
the order first encountered) followed by taking the first n. -/
def most_common (l : List (String × Nat)) (n : Nat) : List (String × Nat) :=
  (List.insertionSort countGE l).take n

/-- The retained previous-cycle mapping self.previous_trends: a dict from
word to count, modelled as an association list in insertion order. -/
abbrev TrendState := List (String × Nat)

/-- Python dict get with default 0 (monitor.py line 128). -/
def getCount (st : TrendState) (w : String) : Nat :=
  match st.find? fun p => p.1 == w with
  | some p => p.2
  | none => 0

/-- One alert dict appended to the trends list in detect_trends. -/
structure Alert where
  word : String
  count : Nat
  type : String
  change : ℚ
deriving DecidableEq, Repr

/-- The spike percentage (monitor.py line 140), computed exactly over the
rationals in place of Python float division. -/
def changePercent (previous_count count : Nat) : ℚ :=
  ((count : ℚ) - (previous_count : ℚ)) / (previous_count : ℚ) * 100

/-- The alert-emitting loop of detect_trends (monitor.py lines 126 to 147)
over the ranked top-30 entries. -/
def trendLoop (prev : TrendState) : List (String × Nat) → List Alert
  | [] => []
  | (word, count) :: rest =>
    if 2 ≤ count then
      if getCount prev word = 0 ∧ 3 ≤ count then
        { word := word, count := count, type := "new", change := 0 } ::
          trendLoop prev rest
      else if 0 < getCount prev word then
        if 50 ≤ changePercent (getCount prev word) count then
          { word := word, count := count, type := "spike",
            change := changePercent (getCount prev word) count } ::
            trendLoop prev rest
        else trendLoop prev rest
      else trendLoop prev rest
    else trendLoop prev rest

/-- The per-entry decision of the loop body of detect_trends, as an
optional alert; used to characterise trendLoop in the proofs below. -/
def emitAlert (prev : TrendState) (p : String × Nat) : Option Alert :=
  if 2 ≤ p.2 then
    if getCount prev p.1 = 0 ∧ 3 ≤ p.2 then
      some { word := p.1, count := p.2, type := "new", change := 0 }
    else if 0 < getCount prev p.1 then
      if 50 ≤ changePercent (getCount prev p.1) p.2 then
        some { word := p.1, count := p.2, type := "spike",
               change := changePercent (getCount prev p.1) p.2 }
      else none
    else none
  else none

/-- detect_trends (monitor.py lines 119 to 151).  Takes the retained
previous state and the cycle word list; returns the emitted alerts and the
state that the method stores into self.previous_trends before returning.
On an empty word list it returns immediately, leaving the state untouched.
Note that the state replacement happens inside this method, before any
persistence is attempted by the caller. -/
def detect_trends (prev : TrendState) (current_words : List String) :
    List Alert × TrendState :=
  if current_words = [] then ([], prev)
  else
    (trendLoop prev (most_common (counter current_words) 30),
     most_common (counter current_words) 100)

/-- Outcome of one requests.get call in scrape_reddit: a 200 response with
a list of posts (title and selftext), a non-200 status, or a raised
exception (timeout, connection error, malformed payload). -/
inductive FetchResult where
  | ok (docs : List (String × String))
  | httpError
  | exn
deriving DecidableEq, Repr

/-- The words contributed by the posts of one successful fetch
(monitor.py lines 102 to 108): clean_text of title, space, selftext. -/
def docWords (docs : List (String × String)) : List String :=
  docs.flatMap fun d => clean_text (d.1 ++ " " ++ d.2)

/-- The fetch loop of scrape_reddit (monitor.py lines 95 to 110), run on
the per-subreddit outcomes with the accumulated word list.  The single
try-except wraps the whole loop: an exception anywhere abandons the loop
and the accumulated words and returns the empty list (monitor.py lines 86
and 115 to 117); a non-200 status merely skips that subreddit. -/
def scrapeAux : List FetchResult → List String → List String
  | [], acc => acc
  | FetchResult.exn :: _, _ => []
  | FetchResult.httpError :: rest, acc => scrapeAux rest acc
  | FetchResult.ok docs :: rest, acc => scrapeAux rest (acc ++ docWords docs)

/-- The subreddit list of scrape_reddit (monitor.py line 92). -/
def subreddits : List String := ["all", "popular", "worldnews", "technology", "science"]

/-- scrape_reddit (monitor.py lines 85 to 117), parameterised by the
outcome of each subreddit fetch.  Only the first two subreddits are
fetched (the slice at line 95), so only the first two outcomes matter. -/
def scrape_reddit (outcomes : List FetchResult) : List String :=
  scrapeAux (outcomes.take 2) []

/-- One row of the trends table (monitor.py lines 27 to 35 and 158 to
164).  Timestamps are modelled as abstract instants with a decidable
order, standing for the ISO-8601 strings the code compares. -/
structure TrendRecord where
  word : String
  count : Nat
  source : String
  timestamp : Nat
deriving DecidableEq, Repr

/-- One row of the alerts table (monitor.py lines 36 to 45 and 166 to
171). -/
structure AlertRow where
  word : String
  count : Nat
  change_percent : ℚ
  alert_type : String
  timestamp : Nat
deriving DecidableEq, Repr

/-- save_data (monitor.py lines 153 to 176): the rows written on success,
one trends row per entry of Counter(words) in insertion order, and one
alerts row per trend dict. -/
def save_data (words : List String) (trends : List Alert) (ts : Nat) :
    List TrendRecord × List AlertRow :=
  ((counter words).map fun p =>
     { word := p.1, count := p.2, source := "reddit", timestamp := ts },
   trends.map fun t =>
     { word := t.word, count := t.count, change_percent := t.change,
       alert_type := t.type, timestamp := ts })

/-- Observable outcome of one run_cycle call: the retained state
afterwards, the rows persisted (none when nothing was written), and
whether the method returned normally rather than raising. -/
structure CycleResult where
  state : TrendState
  persisted : Option (List TrendRecord × List AlertRow)
  completed : Bool
deriving DecidableEq, Repr

/-- run_cycle (monitor.py lines 191 to 210), parameterised by the fetch
outcomes and by whether the save_data call succeeds.  When no words were
collected the cycle is skipped before any state change.  Otherwise
detect_trends runs and replaces self.previous_trends at its line 150, and
only then is save_data attempted: a persistence failure raises out of
run_cycle, after the state has already been replaced, and nothing is
written; sqlite rolls back the uncommitted inserts. -/
def run_cycle (outcomes : List FetchResult) (persistOk : Bool) (ts : Nat)
    (prev : TrendState) : CycleResult :=
  let words := scrape_reddit outcomes
  if words = [] then { state := prev, persisted := none, completed := true }
  else
    let result := detect_trends prev words
    if persistOk then
      { state := result.2, persisted := some (save_data words result.1 ts),
        completed := true }
    else
      { state := result.2, persisted := none, completed := false }

/-- The comparator of the recent-trends query: descending aggregated
count. -/
def totalGE (a b : String × Nat × String) : Prop := b.2.1 ≤ a.2.1

instance : DecidableRel totalGE := fun a b => inferInstanceAs (Decidable (b.2.1 ≤ a.2.1))

instance : IsTotal (String × Nat × String) totalGE := ⟨fun a b => Nat.le_total b.2.1 a.2.1⟩

instance : IsTrans (String × Nat × String) totalGE := ⟨fun _ _ _ h1 h2 => Nat.le_trans h2 h1⟩

/-- get_recent_trends (app.py lines 39 to 55): over the rows whose
timestamp is after the cutoff, group by word and source, sum the counts,
order by the summed count descending, and return at most twenty rows of
word, summed count and source. -/
def get_recent_trends (rows : List TrendRecord) (cutoff : Nat) :
    List (String × Nat × String) :=
  let recent := rows.filter fun r => decide (cutoff < r.timestamp)
  let grouped := (keysInOrder (recent.map fun r => (r.word, r.source))).map fun k =>
    (k.1, ((recent.filter fun r => r.word == k.1 && r.source == k.2).map
      TrendRecord.count).sum, k.2)
  (List.insertionSort totalGE grouped).take 20

/-! ### Frequency table basics -/

theorem mem_keysInOrder {α : Type} [DecidableEq α] {l : List α} {a : α} :
    a ∈ keysInOrder l ↔ a ∈ l := by
  induction l with
  | nil => simp [keysInOrder]
  | cons b rest ih =>
    simp only [keysInOrder, List.mem_cons, List.mem_filter, bne_iff_ne, ih]
    by_cases hab : a = b
    · simp [hab]
    · simp [hab]

theorem nodup_keysInOrder {α : Type} [DecidableEq α] (l : List α) :
    (keysInOrder l).Nodup := by
  induction l with
  | nil => simp [keysInOrder]
  | cons b rest ih =>
    refine List.Nodup.cons ?_ (ih.filter _)
    intro hmem
    have := List.of_mem_filter hmem
    simp at this

theorem counter_keys {α : Type} [DecidableEq α] (l : List α) :
    (counter l).map Prod.fst = keysInOrder l := by
  simp [counter, List.map_map, Function.comp_def]

theorem nodup_counter {α : Type} [DecidableEq α] (l : List α) :
    (counter l).Nodup := by
  have h : ((counter l).map Prod.fst).Nodup := by
    rw [counter_keys]; exact nodup_keysInOrder l
  exact h.of_map _

theorem sum_map_filter_ne {α : Type} [DecidableEq α] (K : List α) (f : α → Nat) (w : α)
    (h : K.Nodup) :
    ((K.filter fun b => b != w).map f).sum + (if w ∈ K then f w else 0) = (K.map f).sum := by
  induction K with
  | nil => simp
  | cons k rest ih =>
    rcases List.nodup_cons.mp h with ⟨hk, hrest⟩
    by_cases hkw : k = w
    · subst hkw
      have hfe : rest.filter (fun b => b != k) = rest :=
        List.filter_eq_self.mpr fun b hb => by
          simp only [bne_iff_ne, ne_eq, decide_eq_true_eq]
          exact fun e => hk (e ▸ hb)
      have hknr : k ∉ rest := hk
      simp [List.filter_cons, hfe, hknr, Nat.add_comm]
    · have hne : (k != w) = true := by simp [bne_iff_ne, hkw]
      simp only [List.filter_cons, hne, if_pos, List.map_cons, List.sum_cons, List.mem_cons]
      have := ih hrest
      by_cases hw : w ∈ rest <;> simp [hw, Ne.symm hkw] at this ⊢ <;> omega

/-- C7: the counts of the cycle frequency table sum to the number of
tokens fed in. -/
theorem counter_sum_eq_length (words : List String) :
    ((counter words).map Prod.snd).sum = words.length := by
  induction words with
  | nil => simp [counter, keysInOrder]
  | cons a l ih =>
    have hsum : ((keysInOrder l).map fun b => l.count b).sum = l.length := by
      simpa [counter, List.map_map, Function.comp_def] using ih
    have hkey := sum_map_filter_ne (keysInOrder l) (fun b => l.count b) a (nodup_keysInOrder l)
    rw [← hkey] at hsum
    simp only [counter, keysInOrder, List.map_cons, List.map_map, List.sum_cons,
      Function.comp_def]
    have hcount : ∀ b ∈ (keysInOrder l).filter (fun b => b != a),
        (a :: l).count b = l.count b := by
      intro b hb
      have hba : b ≠ a := by
        have := List.of_mem_filter hb
        simpa [bne_iff_ne] using this
      simp [List.count_cons, hba]
    rw [List.map_congr_left fun b hb => hcount b hb]
    have hself : (a :: l).count a = l.count a + 1 := by simp [List.count_cons]
    by_cases hal : a ∈ l
    · have : a ∈ keysInOrder l := mem_keysInOrder.mpr hal
      simp only [this, if_pos] at hsum
      simp only [List.length_cons, hself]
      omega
    · have h1 : a ∉ keysInOrder l := fun hmem => hal (mem_keysInOrder.mp hmem)
      simp only [h1, if_neg, not_false_iff] at hsum
      have h0 : l.count a = 0 := by
        simp [List.count_eq_zero]
        exact hal
      simp only [List.length_cons, hself, h0]
      omega

/-- C9: classify on an empty token sequence returns no alerts and leaves
the retained previous-state mapping untouched: the wholesale state
replacement is skipped rather than performed with an empty table. -/
theorem detect_trends_nil (prev : TrendState) : detect_trends prev [] = ([], prev) := by
  simp [detect_trends]

/-! ### Classifier alert characterisation -/

theorem emitAlert_word {prev : TrendState} {p : String × Nat} {a : Alert}
    (h : emitAlert prev p = some a) : a.word = p.1 := by
  unfold emitAlert at h
  split_ifs at h <;>
    first
      | exact Option.noConfusion h
      | (rw [Option.some_inj] at h; rw [← h])

theorem emitAlert_count {prev : TrendState} {p : String × Nat} {a : Alert}
    (h : emitAlert prev p = some a) : a.count = p.2 := by
  unfold emitAlert at h
  split_ifs at h <;>
    first
      | exact Option.noConfusion h
      | (rw [Option.some_inj] at h; rw [← h])

theorem trendLoop_eq_filterMap (prev : TrendState) (l : List (String × Nat)) :
    trendLoop prev l = l.filterMap (emitAlert prev) := by
  induction l with
  | nil => rfl
  | cons p rest ih =>
    obtain ⟨w, c⟩ := p
    rw [trendLoop, List.filterMap_cons]
    have he : emitAlert prev (w, c) =
        if 2 ≤ c then
          if getCount prev w = 0 ∧ 3 ≤ c then
            some { word := w, count := c, type := "new", change := 0 }
          else if 0 < getCount prev w then
            if 50 ≤ changePercent (getCount prev w) c then
              some { word := w, count := c, type := "spike",
                     change := changePercent (getCount prev w) c }
            else none
          else none
        else none := rfl
    rw [he]
    split_ifs <;> simp [ih]

theorem filterMap_emit_no_word (prev : TrendState) (l : List (String × Nat)) (w : String)
    (hw : w ∉ l.map Prod.fst) :
    (l.filterMap (emitAlert prev)).filter (fun a => a.word == w) = [] := by
  induction l with
  | nil => rfl
  | cons p rest ih =>
    simp only [List.map_cons, List.mem_cons, not_or] at hw
    obtain ⟨hpw, hrest⟩ := hw
    cases h : emitAlert prev p with
    | none => rw [List.filterMap_cons, h]; exact ih hrest
    | some a =>
      have ha : a.word = p.1 := emitAlert_word h
      rw [List.filterMap_cons, h, List.filter_cons]
      have : (a.word == w) = false := by
        simp [ha]
        exact fun e => hpw e.symm
      rw [this]
      simp only [Bool.false_eq_true, if_neg, not_false_iff]
      exact ih hrest

theorem filter_filterMap_emit (prev : TrendState) (l : List (String × Nat))
    (w : String) (c : Nat) (hnd : (l.map Prod.fst).Nodup) (hmem : (w, c) ∈ l) :
    (l.filterMap (emitAlert prev)).filter (fun a => a.word == w)
      = (emitAlert prev (w, c)).toList := by
  induction l with
  | nil => cases hmem
  | cons p rest ih =>
    simp only [List.map_cons, List.nodup_cons] at hnd
    obtain ⟨hp1, hnd'⟩ := hnd
    rcases List.mem_cons.mp hmem with heq | hmem'
    · subst heq
      have hw : w ∉ rest.map Prod.fst := hp1
      cases h : emitAlert prev (w, c) with
      | none =>
        rw [List.filterMap_cons, h]
        simp only [Option.toList]
        exact filterMap_emit_no_word prev rest w hw
      | some a =>
        have ha : a.word = w := emitAlert_word h
        rw [List.filterMap_cons, h, List.filter_cons]
        have hwt : (a.word == w) = true := by simp [ha]
        rw [hwt]
        simp only [if_pos, Option.toList]
        rw [filterMap_emit_no_word prev rest w hw]
    · have hpw : p.1 ≠ w := by
        intro e
        exact hp1 (e ▸ (List.mem_map_of_mem Prod.fst hmem'))
      cases h : emitAlert prev p with
      | none => rw [List.filterMap_cons, h]; exact ih hnd' hmem'
      | some a =>
        have ha : a.word = p.1 := emitAlert_word h
        rw [List.filterMap_cons, h, List.filter_cons]
        have : (a.word == w) = false := by
          simp [ha]
          exact hpw
        rw [this]
        simp only [Bool.false_eq_true, if_neg, not_false_iff]
        exact ih hnd' hmem'

theorem nodup_ranked_keys (words : List String) :
    ((List.insertionSort countGE (counter words)).map Prod.fst).Nodup := by
  have hperm : List.Perm ((List.insertionSort countGE (counter words)).map Prod.fst)
      ((counter words).map Prod.fst) :=
    (List.perm_insertionSort countGE (counter words)).map Prod.fst
  rw [hperm.nodup_iff, counter_keys]
  exact nodup_keysInOrder words

theorem nodup_most_common_keys (words : List String) (n : Nat) :
    ((most_common (counter words) n).map Prod.fst).Nodup := by
  rw [most_common, List.map_take]
  exact (nodup_ranked_keys words).sublist (List.take_sublist n _)

/-- C3: for each token of the ranked top 30 whose count is at least two,
the classify call emits exactly one New alert with change zero when the
previous count is zero and the count is at least three, exactly one Spike
alert carrying the exact change percent when the previous count is
positive and the change percent is at least fifty, and no alert for that
token in every other case. -/
theorem classify_alert_cases (prev : TrendState) (words : List String) (w : String) (c : Nat)
    (hmem : (w, c) ∈ most_common (counter words) 30) (hc : 2 ≤ c) :
    ((getCount prev w = 0 ∧ 3 ≤ c) →
        ((detect_trends prev words).1.filter fun a => a.word == w)
          = [{ word := w, count := c, type := "new", change := 0 }]) ∧
    ((0 < getCount prev w ∧ 50 ≤ changePercent (getCount prev w) c) →
        ((detect_trends prev words).1.filter fun a => a.word == w)
          = [{ word := w, count := c, type := "spike",
               change := changePercent (getCount prev w) c }]) ∧
    ((getCount prev w = 0 ∧ c < 3) →
        ((detect_trends prev words).1.filter fun a => a.word == w) = []) ∧
    ((0 < getCount prev w ∧ changePercent (getCount prev w) c < 50) →
        ((detect_trends prev words).1.filter fun a => a.word == w) = []) := by
  have hwne : words ≠ [] := by
    intro h
    subst h
    simp [most_common, counter, keysInOrder] at hmem
  have halerts : (detect_trends prev words).1
      = (most_common (counter words) 30).filterMap (emitAlert prev) := by
    simp only [detect_trends, hwne, if_neg]
    exact trendLoop_eq_filterMap prev _
  have hchar := filter_filterMap_emit prev (most_common (counter words) 30) w c
    (nodup_most_common_keys words 30) hmem
  rw [halerts, hchar]
  refine ⟨fun h => ?_, fun h => ?_, fun h => ?_, fun h => ?_⟩
  · simp [emitAlert, hc, h.1, h.2]
  · have h0 : ¬ (getCount prev w = 0 ∧ 3 ≤ c) := fun hx => by omega
    simp [emitAlert, hc, h0, h.1, h.2]
  · have h3 : ¬ 3 ≤ c := by omega
    simp [emitAlert, hc, h.1, h3]
  · have h0 : ¬ (getCount prev w = 0 ∧ 3 ≤ c) := fun hx => by omega
    simp [emitAlert, hc, h0, h.1, not_le.mpr h.2]

/-- Witness for classify_alert_cases: previous state maps rocket to ten,
the cycle has sixteen occurrences of rocket, and exactly one Spike alert
with change sixty percent is emitted for it. -/
theorem classify_alert_cases_witness :
    ((detect_trends [("rocket", 10)] (List.replicate 16 "rocket")).1.filter
        fun a => a.word == "rocket")
      = [{ word := "rocket", count := 16, type := "spike", change := 60 }] := by
  have hg : getCount [("rocket", 10)] "rocket" = 10 := by decide
  have h50 : (50 : ℚ) ≤ changePercent 10 16 := by norm_num [changePercent]
  have he : changePercent (10 : Nat) 16 = 60 := by norm_num [changePercent]
  have h := (classify_alert_cases [("rocket", 10)] (List.replicate 16 "rocket")
    "rocket" 16 (by decide) (by decide)).2.1
    ⟨by rw [hg]; norm_num, by rw [hg]; exact h50⟩
  rw [hg, he] at h
  exact h

/-- C10: every classify call emits at most thirty alerts, at most one
alert per distinct token, and two emitted alerts with the same token are
the same alert, so no token receives both a New and a Spike alert in one
cycle. -/
theorem classify_alert_bounds (prev : TrendState) (words : List String) :
    (detect_trends prev words).1.length ≤ 30 ∧
    (∀ w : String,
      ((detect_trends prev words).1.filter fun a => a.word == w).length ≤ 1) ∧
    (∀ a ∈ (detect_trends prev words).1, ∀ b ∈ (detect_trends prev words).1,
      a.word = b.word → a = b) := by
  by_cases hwe : words = []
  · subst hwe
    simp [detect_trends]
  · have halerts : (detect_trends prev words).1
        = (most_common (counter words) 30).filterMap (emitAlert prev) := by
      simp only [detect_trends, hwe, if_neg]
      exact trendLoop_eq_filterMap prev _
    have hlen : (detect_trends prev words).1.length ≤ 30 := by
      rw [halerts]
      calc ((most_common (counter words) 30).filterMap (emitAlert prev)).length
          ≤ (most_common (counter words) 30).length := List.length_filterMap_le _ _
        _ ≤ 30 := by simp [most_common]
    have hone : ∀ w : String,
        ((detect_trends prev words).1.filter fun a => a.word == w).length ≤ 1 := by
      intro w
      rw [halerts]
      by_cases hw : w ∈ (most_common (counter words) 30).map Prod.fst
      · obtain ⟨p, hp, hpw⟩ := List.mem_map.mp hw
        obtain ⟨w0, c0⟩ := p
        rcases hpw
        rw [filter_filterMap_emit prev _ w0 c0 (nodup_most_common_keys words 30) hp]
        cases emitAlert prev (w0, c0) <;> simp
      · rw [filterMap_emit_no_word prev _ w hw]
        simp
    refine ⟨hlen, hone, ?_⟩
    intro a ha b hb hab
    have hma : a ∈ (detect_trends prev words).1.filter fun x => x.word == a.word :=
      List.mem_filter.mpr ⟨ha, by simp⟩
    have hmb : b ∈ (detect_trends prev words).1.filter fun x => x.word == a.word :=
      List.mem_filter.mpr ⟨hb, by simp [hab]⟩
    have hlen1 := hone a.word
    rcases hf : (detect_trends prev words).1.filter fun x => x.word == a.word with _ | ⟨x, rest⟩
    · rw [hf] at hma
      cases hma
    · rw [hf] at hma hmb hlen1
      have hrest : rest = [] := by
        have hl0 : rest.length = 0 := by
          simp only [List.length_cons] at hlen1
          omega
        exact List.eq_nil_of_length_eq_zero hl0
      subst hrest
      simp at hma hmb
      rw [hma, hmb]

/-- Witness for classify_alert_bounds at a concrete cycle. -/
theorem classify_alert_bounds_witness :
    (detect_trends [] ["rocket"]).1.length ≤ 30 :=
  (classify_alert_bounds [] ["rocket"]).1

/-! ### Ranking order and stability -/

theorem pair_sublist_of_mem {α : Type} {l : List α} {a b : α} (ha : a ∈ l) (hb : b ∈ l)
    (hne : a ≠ b) : [a, b] <+ l ∨ [b, a] <+ l := by
  induction l with
  | nil => cases ha
  | cons x rest ih =>
    rcases List.mem_cons.mp ha with rfl | ha'
    · have hb' : b ∈ rest := by
        rcases List.mem_cons.mp hb with h | h
        · exact absurd h.symm hne
        · exact h
      exact Or.inl (List.Sublist.cons₂ _ (List.singleton_sublist.mpr hb'))
    · rcases List.mem_cons.mp hb with rfl | hb'
      · exact Or.inr (List.Sublist.cons₂ _ (List.singleton_sublist.mpr ha'))
      · rcases ih ha' hb' with h | h
        · exact Or.inl (List.Sublist.cons _ h)
        · exact Or.inr (List.Sublist.cons _ h)

theorem indexOf_lt_of_pair_sublist {α : Type} [DecidableEq α] {l : List α} {a b : α}
    (hnd : l.Nodup) (hs : [a, b] <+ l) (hne : a ≠ b) :
    l.indexOf a < l.indexOf b := by
  induction l with
  | nil => exact absurd (List.sublist_nil.mp hs) (by simp)
  | cons x rest ih =>
    rcases List.nodup_cons.mp hnd with ⟨hx, hrest⟩
    cases hs with
    | cons _ h =>
      have ha : a ∈ rest := h.subset (by simp)
      have hb : b ∈ rest := h.subset (by simp)
      have hxa : x ≠ a := fun e => hx (e ▸ ha)
      have hxb : x ≠ b := fun e => hx (e ▸ hb)
      rw [List.indexOf_cons_ne _ hxa, List.indexOf_cons_ne _ hxb]
      exact Nat.succ_lt_succ (ih hrest h)
    | cons₂ _ h =>
      have hb : b ∈ rest := List.singleton_sublist.mp h
      rw [List.indexOf_cons_self, List.indexOf_cons_ne _ hne]
      exact Nat.succ_pos _

theorem keysInOrder_pair_indexOf {α : Type} [DecidableEq α] {l : List α} {a b : α}
    (hs : [a, b] <+ keysInOrder l) (hne : a ≠ b) :
    l.indexOf a < l.indexOf b := by
  induction l with
  | nil => exact absurd (List.sublist_nil.mp hs) (by simp)
  | cons x rest ih =>
    rw [keysInOrder] at hs
    cases hs with
    | cons _ h =>
      have haf : a ∈ (keysInOrder rest).filter (fun y => y != x) := h.subset (by simp)
      have hbf : b ∈ (keysInOrder rest).filter (fun y => y != x) := h.subset (by simp)
      have hxa : x ≠ a := by
        have := List.of_mem_filter haf
        simp only [bne_iff_ne, ne_eq, decide_eq_true_eq] at this
        exact Ne.symm this
      have hxb : x ≠ b := by
        have := List.of_mem_filter hbf
        simp only [bne_iff_ne, ne_eq, decide_eq_true_eq] at this
        exact Ne.symm this
      have h' : [a, b] <+ keysInOrder rest := h.trans (List.filter_sublist _)
      rw [List.indexOf_cons_ne _ hxa, List.indexOf_cons_ne _ hxb]
      exact Nat.succ_lt_succ (ih h')
    | cons₂ _ h =>
      have hbf : b ∈ (keysInOrder rest).filter (fun y => y != a) :=
        List.singleton_sublist.mp h
      rw [List.indexOf_cons_self, List.indexOf_cons_ne _ hne]
      exact Nat.succ_pos _

theorem nodup_ranked (words : List String) :
    (List.insertionSort countGE (counter words)).Nodup :=
  ((List.perm_insertionSort countGE (counter words)).nodup_iff).mpr (nodup_counter words)

theorem ranked_tie_indexOf (words : List String) {p q : String × Nat}
    (hs : [p, q] <+ List.insertionSort countGE (counter words)) (heq : p.2 = q.2) :
    words.indexOf p.1 < words.indexOf q.1 := by
  have hnd := nodup_ranked words
  have hpq : p ≠ q := by
    intro e
    subst e
    have := hnd.sublist hs
    simp at this
  have hp : p ∈ counter words :=
    (List.perm_insertionSort countGE (counter words)).subset (hs.subset (by simp))
  have hq : q ∈ counter words :=
    (List.perm_insertionSort countGE (counter words)).subset (hs.subset (by simp))
  have horder : [p, q] <+ counter words := by
    rcases pair_sublist_of_mem hp hq hpq with h | h
    · exact h
    · exfalso
      have hge : countGE q p := le_of_eq heq
      have hqp : [q, p] <+ List.insertionSort countGE (counter words) :=
        List.pair_sublist_insertionSort hge h
      have i1 := indexOf_lt_of_pair_sublist hnd hs hpq
      have i2 := indexOf_lt_of_pair_sublist hnd hqp hpq.symm
      omega
  have hne1 : p.1 ≠ q.1 := by
    intro e
    exact hpq (Prod.ext e heq)
  have horder' : [p, q] <+ (keysInOrder words).map fun a => (a, words.count a) := by
    simpa [counter] using horder
  obtain ⟨l', hsub, hmap⟩ := List.sublist_map_iff.mp horder'
  rcases l' with _ | ⟨a₁, l''⟩
  · simp at hmap
  rcases l'' with _ | ⟨a₂, l''⟩
  · simp at hmap
  rcases l'' with _ | ⟨a₃, l''⟩
  · simp only [List.map_cons, List.map_nil, List.cons.injEq, and_true] at hmap
    obtain ⟨hp1, hq1⟩ := hmap
    subst hp1
    subst hq1
    exact keysInOrder_pair_indexOf hsub hne1
  · simp at hmap

/-- C4: after a classify call on a nonempty token sequence the retained
state has at most one hundred entries; it has exactly one hundred entries
when the table of the cycle has at least one hundred distinct tokens; every
retained entry is an entry of the table; and a token of the table that was
not retained has a count at most that of every retained token, a tie being
resolved against the token that first occurs later in the token sequence
of the cycle. -/
theorem classify_state_bound (prev : TrendState) (words : List String)
    (hw : words ≠ []) :
    (detect_trends prev words).2.length ≤ 100 ∧
    (100 ≤ (counter words).length → (detect_trends prev words).2.length = 100) ∧
    (∀ p ∈ (detect_trends prev words).2, p ∈ counter words) ∧
    (∀ q ∈ counter words, q.1 ∉ (detect_trends prev words).2.map Prod.fst →
      (∀ p ∈ (detect_trends prev words).2, q.2 ≤ p.2) ∧
      (∀ p ∈ (detect_trends prev words).2, p.2 = q.2 →
        words.indexOf p.1 < words.indexOf q.1)) := by
  have hst : (detect_trends prev words).2 = most_common (counter words) 100 := by
    simp [detect_trends, hw]
  rw [hst]
  have hperm := List.perm_insertionSort countGE (counter words)
  have hsorted : (List.insertionSort countGE (counter words)).Sorted countGE :=
    List.sorted_insertionSort countGE (counter words)
  refine ⟨?_, ?_, ?_, ?_⟩
  · simp [most_common]
  · intro h100
    have hlen : (List.insertionSort countGE (counter words)).length
        = (counter words).length := hperm.length_eq
    simp only [most_common, List.length_take]
    omega
  · intro p hp
    exact hperm.subset (List.take_subset _ _ hp)
  · intro q hq hqk
    have hqL : q ∈ List.insertionSort countGE (counter words) := hperm.mem_iff.mpr hq
    have hqsplit : q ∈ (List.insertionSort countGE (counter words)).take 100 ++
        (List.insertionSort countGE (counter words)).drop 100 := by
      rw [List.take_append_drop]
      exact hqL
    have hqdrop : q ∈ (List.insertionSort countGE (counter words)).drop 100 := by
      rcases List.mem_append.mp hqsplit with h | h
      · exact absurd (List.mem_map_of_mem Prod.fst h) hqk
      · exact h
    refine ⟨fun p hp => ?_, fun p hp hpq => ?_⟩
    · exact hsorted.rel_of_mem_take_of_mem_drop hp hqdrop
    · have hpair : [p, q] <+ List.insertionSort countGE (counter words) := by
        have h1 : [p] <+ (List.insertionSort countGE (counter words)).take 100 :=
          List.singleton_sublist.mpr hp
        have h2 : [q] <+ (List.insertionSort countGE (counter words)).drop 100 :=
          List.singleton_sublist.mpr hqdrop
        have := h1.append h2
        rwa [List.take_append_drop] at this
      exact ranked_tie_indexOf words hpair hpq

/-- Witness for classify_state_bound at a concrete nonempty cycle. -/
theorem classify_state_bound_witness :
    (detect_trends [] ["rocket"]).2.length ≤ 100 :=
  (classify_state_bound [] ["rocket"] (by decide)).1

/-- C6: the ranking sorts the frequency table by descending count and is a
permutation of it; entries with equal counts keep the first-occurrence
order of their tokens in the token sequence of the cycle; every emitted alert
takes its word and count from the ranked top thirty; and the trend records
persisted by save_data are exactly the full frequency table. -/
theorem ranking_spec (words : List String) (prev : TrendState) (ts : Nat) :
    (List.insertionSort countGE (counter words)).Sorted countGE ∧
    List.Perm (List.insertionSort countGE (counter words)) (counter words) ∧
    (∀ p q : String × Nat, [p, q] <+ List.insertionSort countGE (counter words) →
      p.2 = q.2 → words.indexOf p.1 < words.indexOf q.1) ∧
    (∀ a ∈ (detect_trends prev words).1,
      (a.word, a.count) ∈ most_common (counter words) 30) ∧
    (save_data words (detect_trends prev words).1 ts).1.map (fun r => (r.word, r.count))
      = counter words := by
  refine ⟨List.sorted_insertionSort countGE (counter words),
    List.perm_insertionSort countGE (counter words),
    fun p q hs heq => ranked_tie_indexOf words hs heq, ?_, ?_⟩
  · intro a ha
    by_cases hwe : words = []
    · subst hwe
      simp [detect_trends] at ha
    · have halerts : (detect_trends prev words).1
          = (most_common (counter words) 30).filterMap (emitAlert prev) := by
        simp only [detect_trends, hwe, if_neg]
        exact trendLoop_eq_filterMap prev _
      rw [halerts] at ha
      obtain ⟨p, hp, he⟩ := List.mem_filterMap.mp ha
      rw [emitAlert_word he, emitAlert_count he]
      simpa using hp
  · simp [save_data, List.map_map, Function.comp_def]

/-- Witness for ranking_spec at a concrete cycle. -/
theorem ranking_spec_witness :
    (save_data ["rocket"] (detect_trends [] ["rocket"]).1 0).1.map
      (fun r => (r.word, r.count)) = counter ["rocket"] :=
  (ranking_spec ["rocket"] [] 0).2.2.2.2

/-! ### Orchestrator failure semantics -/

/-- C1 counterexample: a cycle whose persistence step fails does not leave
the retained state as it was before the cycle ran: starting from the empty
state, a failing-persistence cycle over three occurrences of rocket leaves
the state holding rocket with count three. -/
theorem run_cycle_persist_fail_changes_state :
    (run_cycle [FetchResult.ok [("rocket rocket rocket", "")]] false 0 []).state
      = [("rocket", 3)] ∧ ([("rocket", 3)] : TrendState) ≠ [] := by
  constructor
  · decide
  · decide

/-- C1 amended: the orchestrator commits the new state into the classifier
during classification, before persistence is attempted; after a cycle that
collected words the retained state is the new state whether or not
persistence succeeds, and the persistence outcome controls only whether
rows are written. -/
theorem run_cycle_state_committed (outcomes : List FetchResult) (persistOk : Bool)
    (ts : Nat) (prev : TrendState) (h : scrape_reddit outcomes ≠ []) :
    (run_cycle outcomes persistOk ts prev).state
        = (detect_trends prev (scrape_reddit outcomes)).2 ∧
    (run_cycle outcomes false ts prev).state = (run_cycle outcomes true ts prev).state ∧
    ((run_cycle outcomes persistOk ts prev).persisted ≠ none ↔ persistOk = true) := by
  refine ⟨?_, ?_, ?_⟩
  · cases persistOk <;> simp [run_cycle, h]
  · simp [run_cycle, h]
  · cases persistOk <;> simp [run_cycle, h]

/-- Witness for run_cycle_state_committed with a failing persistence. -/
theorem run_cycle_state_committed_witness :
    (run_cycle [FetchResult.ok [("rocket rocket rocket", "")]] false 0 []).state
      = (detect_trends []
          (scrape_reddit [FetchResult.ok [("rocket rocket rocket", "")]])).2 :=
  (run_cycle_state_committed [FetchResult.ok [("rocket rocket rocket", "")]] false 0 []
    (by decide)).1

theorem scrapeAux_exn (l : List FetchResult) (acc : List String)
    (h : FetchResult.exn ∈ l) : scrapeAux l acc = [] := by
  induction l generalizing acc with
  | nil => cases h
  | cons x rest ih =>
    cases x with
    | ok docs =>
      have h' : FetchResult.exn ∈ rest := by
        rcases List.mem_cons.mp h with he | hm
        · exact absurd he (by simp)
        · exact hm
      simpa [scrapeAux] using ih _ h'
    | httpError =>
      have h' : FetchResult.exn ∈ rest := by
        rcases List.mem_cons.mp h with he | hm
        · exact absurd he (by simp)
        · exact hm
      simpa [scrapeAux] using ih _ h'
    | exn => rfl

/-- C2 counterexample: with the same successful second identifier, an
exception on the first identifier yields no words at all, whereas a
non-success status on the first yields the words of the second; a fetch
exception is therefore not recovered per identifier. -/
theorem scrape_exn_not_recovered :
    scrape_reddit [FetchResult.exn, FetchResult.ok [("rocket rocket rocket", "")]] = [] ∧
    scrape_reddit [FetchResult.httpError, FetchResult.ok [("rocket rocket rocket", "")]]
      = ["rocket", "rocket", "rocket"] := by
  constructor
  · rfl
  · decide

/-- C2 amended: a non-success HTTP status for one identifier is skipped
and scraping continues with the remaining identifiers, but a fetch
exception aborts the whole scrape and discards even previously collected
words, yielding zero words; any cycle that collects no words is skipped
with the classifier state untouched and nothing persisted. -/
theorem scrape_failure_semantics (outcomes rest : List FetchResult) (acc : List String)
    (prev : TrendState) (persistOk : Bool) (ts : Nat) :
    (FetchResult.exn ∈ outcomes.take 2 → scrape_reddit outcomes = []) ∧
    scrapeAux (FetchResult.httpError :: rest) acc = scrapeAux rest acc ∧
    (scrape_reddit outcomes = [] →
      run_cycle outcomes persistOk ts prev
        = { state := prev, persisted := none, completed := true }) := by
  refine ⟨fun h => scrapeAux_exn _ _ h, rfl, fun h => ?_⟩
  simp [run_cycle, h]

/-- Witness for scrape_failure_semantics: an exception on the first of two
identifiers empties the whole scrape. -/
theorem scrape_failure_semantics_witness :
    scrape_reddit [FetchResult.exn, FetchResult.ok [("rocket rocket rocket", "")]] = [] :=
  (scrape_failure_semantics [FetchResult.exn, FetchResult.ok [("rocket rocket rocket", "")]]
    [] [] [] false 0).1 (by decide)

/-! ### Recent-trends query -/

/-- C8: for every store content and window cutoff, the recent-trends query
returns at most twenty rows, ranked by descending aggregated count, and
each returned count is the sum of the counts of the stored records with
that word and source whose timestamp falls inside the window. -/
theorem recent_trends_spec (rows : List TrendRecord) (cutoff : Nat) :
    (get_recent_trends rows cutoff).length ≤ 20 ∧
    (get_recent_trends rows cutoff).Sorted totalGE ∧
    ∀ t ∈ get_recent_trends rows cutoff,
      t.2.1 = (((rows.filter fun r => decide (cutoff < r.timestamp)).filter
          fun r => r.word == t.1 && r.source == t.2.2).map TrendRecord.count).sum := by
  refine ⟨?_, ?_, ?_⟩
  · simp [get_recent_trends]
  · exact List.Pairwise.sublist (List.take_sublist _ _)
      (List.sorted_insertionSort totalGE _)
  · intro t ht
    simp only [get_recent_trends] at ht
    have ht2 := List.take_subset _ _ ht
    have ht3 := (List.perm_insertionSort totalGE _).subset ht2
    obtain ⟨k, hk, he⟩ := List.mem_map.mp ht3
    rw [← he]

/-- Witness for recent_trends_spec on a concrete store. -/
theorem recent_trends_spec_witness :
    (get_recent_trends
      [{ word := "rocket", count := 3, source := "reddit", timestamp := 5 }] 2).length
      ≤ 20 :=
  (recent_trends_spec
    [{ word := "rocket", count := 3, source := "reddit", timestamp := 5 }] 2).1

/-! ### Tokenizer properties -/

theorem toNat_ofNat_valid (n : Nat) (h : n.isValidChar) : (Char.ofNat n).toNat = n := by
  rw [Char.ofNat, dif_pos h]
  rfl

theorem uint32_le_iff (a b : UInt32) : a ≤ b ↔ a.toNat ≤ b.toNat := Iff.rfl

theorem isLower_iff_toNat (c : Char) :
    c.isLower = true ↔ 97 ≤ c.toNat ∧ c.toNat ≤ 122 := by
  simp only [Char.isLower, Bool.and_eq_true, decide_eq_true_eq, ge_iff_le, uint32_le_iff]
  exact Iff.rfl

theorem isUpper_iff_toNat (c : Char) :
    c.isUpper = true ↔ 65 ≤ c.toNat ∧ c.toNat ≤ 90 := by
  simp only [Char.isUpper, Bool.and_eq_true, decide_eq_true_eq, ge_iff_le, uint32_le_iff]
  exact Iff.rfl

theorem toLower_isLower_of_isAlpha (c : Char)
    (h : (Char.toLower c).isAlpha = true) : (Char.toLower c).isLower = true := by
  have hdef : Char.toLower c =
      if c.toNat ≥ 65 ∧ c.toNat ≤ 90 then Char.ofNat (c.toNat + 32) else c := rfl
  by_cases hc : c.toNat ≥ 65 ∧ c.toNat ≤ 90
  · rw [hdef, if_pos hc]
    have hv : Nat.isValidChar (c.toNat + 32) := Or.inl (by omega)
    rw [isLower_iff_toNat, toNat_ofNat_valid _ hv]
    omega
  · rw [hdef, if_neg hc] at h ⊢
    rw [Char.isAlpha, Bool.or_eq_true] at h
    rcases h with hu | hl
    · have h2 := (isUpper_iff_toNat c).mp hu
      exact absurd ⟨h2.1, h2.2⟩ hc
    · exact hl

theorem data_asString (l : List Char) : (List.asString l).data = l := rfl

theorem findWordsF_spec (fuel : Nat) :
    ∀ (cs : List Char) (w : String), w ∈ findWordsF fuel cs →
      3 ≤ w.data.length ∧ ∀ c ∈ w.data, c.isAlpha = true ∧ c ∈ cs := by
  induction fuel with
  | zero =>
    intro cs w hw
    simp [findWordsF] at hw
  | succ fuel ih =>
    intro cs w hw
    cases cs with
    | nil => simp [findWordsF] at hw
    | cons c rest =>
      rw [findWordsF] at hw
      by_cases hwc : isWordChar c = true
      · rw [if_pos hwc] at hw
        by_cases hcond : ((c :: rest.takeWhile isWordChar).all Char.isAlpha
            && decide (3 ≤ (c :: rest.takeWhile isWordChar).length)) = true
        · rw [if_pos hcond] at hw
          rcases List.mem_cons.mp hw with heq | hmem
          · subst heq
            rw [Bool.and_eq_true, List.all_eq_true, decide_eq_true_eq] at hcond
            obtain ⟨hall, hlen⟩ := hcond
            rw [data_asString]
            refine ⟨hlen, fun ch hch => ⟨hall ch hch, ?_⟩⟩
            rcases List.mem_cons.mp hch with rfl | htk
            · exact List.mem_cons_self _ _
            · exact List.mem_cons_of_mem _ ((List.takeWhile_sublist _).subset htk)
          · obtain ⟨h1, h2⟩ := ih _ w hmem
            exact ⟨h1, fun ch hch => ⟨(h2 ch hch).1,
              List.mem_cons_of_mem _ ((List.dropWhile_sublist _).subset (h2 ch hch).2)⟩⟩
        · rw [if_neg hcond] at hw
          obtain ⟨h1, h2⟩ := ih _ w hw
          exact ⟨h1, fun ch hch => ⟨(h2 ch hch).1,
            List.mem_cons_of_mem _ ((List.dropWhile_sublist _).subset (h2 ch hch).2)⟩⟩
      · rw [if_neg hwc] at hw
        obtain ⟨h1, h2⟩ := ih _ w hw
        exact ⟨h1, fun ch hch => ⟨(h2 ch hch).1, List.mem_cons_of_mem _ (h2 ch hch).2⟩⟩

theorem findCloser_sublist (close : Char) :
    ∀ (l r : List Char), findCloser close l = some r → r <+ l := by
  intro l
  induction l with
  | nil =>
    intro r h
    simp [findCloser] at h
  | cons c rest ih =>
    intro r h
    rw [findCloser] at h
    by_cases h1 : c = close
    · rw [if_pos h1, Option.some_inj] at h
      subst h
      exact List.sublist_cons_self _ _
    · rw [if_neg h1] at h
      by_cases h2 : c = '\n'
      · rw [if_pos h2] at h
        exact Option.noConfusion h
      · rw [if_neg h2] at h
        exact (ih r h).trans (List.sublist_cons_self _ _)

theorem matchStrip_sublist (cs rem : List Char) (h : matchStrip cs = some rem) :
    rem <+ cs := by
  rw [matchStrip.eq_def] at h
  split at h
  · split_ifs at h
    rw [Option.some_inj] at h
    subst h
    refine (List.dropWhile_sublist _).trans ?_
    exact List.Sublist.cons _ (List.Sublist.cons _ (List.Sublist.cons _
      (List.Sublist.cons _ (List.Sublist.refl _))))
  · split_ifs at h
    rw [Option.some_inj] at h
    subst h
    exact (List.dropWhile_sublist _).trans (List.Sublist.cons _ (List.Sublist.refl _))
  · exact List.Sublist.cons _ (findCloser_sublist _ _ _ h)
  · exact List.Sublist.cons _ (findCloser_sublist _ _ _ h)
  · exact Option.noConfusion h

theorem stripSubF_subset (fuel : Nat) :
    ∀ (cs : List Char) (c : Char), c ∈ stripSubF fuel cs → c ∈ cs := by
  induction fuel with
  | zero =>
    intro cs c h
    simp [stripSubF] at h
  | succ fuel ih =>
    intro cs c h
    cases cs with
    | nil => simp [stripSubF] at h
    | cons x rest =>
      rw [stripSubF] at h
      cases hm : matchStrip (x :: rest) with
      | some rem =>
        rw [hm] at h
        exact (matchStrip_sublist _ _ hm).subset (ih _ _ h)
      | none =>
        rw [hm] at h
        rcases List.mem_cons.mp h with rfl | hmem
        · exact List.mem_cons_self _ _
        · exact List.mem_cons_of_mem _ (ih _ _ hmem)

/-- C5: the tokenizer output is the hashtag tokens in the order found,
bypassing the stopword and length filters, followed by the surviving plain
words in the order found: the surviving words form a subsequence of all
the words found in the stripped lowercased text, and every one of them has
length at least four, consists only of lowercase letters, and is not in
the stopword set.  An empty input yields the empty sequence. -/
theorem clean_text_spec (text : String) :
    clean_text "" = [] ∧
    ∃ ws : List String,
      clean_text text = findHashtags (text.data.map Char.toLower) ++ ws ∧
      ws <+ findWords (stripSub (text.data.map Char.toLower)) ∧
      ∀ w ∈ ws, 4 ≤ w.length ∧ w ∉ stopwords ∧ ∀ c ∈ w.data, c.isLower = true := by
  refine ⟨rfl, ?_⟩
  by_cases h0 : text = ""
  · subst h0
    exact ⟨[], rfl, List.nil_sublist _, by simp⟩
  · refine ⟨(findWords (stripSub (text.data.map Char.toLower))).filter
      (fun w => !(stopwords.contains w) && decide (4 ≤ w.length)), ?_, ?_, ?_⟩
    · simp [clean_text, h0]
    · exact List.filter_sublist _
    · intro w hw
      have hmem := List.mem_of_mem_filter hw
      have hpred := List.of_mem_filter hw
      rw [Bool.and_eq_true] at hpred
      obtain ⟨hstop, hlen⟩ := hpred
      refine ⟨by simpa using hlen, ?_, ?_⟩
      · intro hmem2
        have hc : stopwords.contains w = true := List.elem_iff.2 hmem2
        rw [hc] at hstop
        simp at hstop
      · intro c hc
        have hmem' : w ∈ findWordsF (stripSub (text.data.map Char.toLower)).length
            (stripSub (text.data.map Char.toLower)) := hmem
        obtain ⟨hal, hin⟩ :=
          (findWordsF_spec _ _ w hmem').2 c hc
        have hin' : c ∈ stripSubF (text.data.map Char.toLower).length
            (text.data.map Char.toLower) := hin
        have hint : c ∈ text.data.map Char.toLower := stripSubF_subset _ _ _ hin'
        obtain ⟨c₀, hc₀, he⟩ := List.mem_map.mp hint
        rw [← he] at hal ⊢
        exact toLower_isLower_of_isAlpha c₀ hal

/-- Witness for clean_text_spec on a concrete document text. -/
theorem clean_text_spec_witness : clean_text "" = [] := (clean_text_spec "").1

end SocialMonitor
